import Mathlib

/-!
Verification of the batched OCR pipeline in `ocr_extract.py`.

The Python source is shallowly embedded: Python strings are `List Char`
(a sequence of code points), page images are their pixel dimensions
(the pixel contents only influence the run through the remote model,
which is modelled as a response oracle), and the remote Gemini calls
are modelled by attempt-indexed oracles so that every retry schedule of
the flaky endpoint can be analysed.  Machine integers in the source are
Python arbitrary-precision ints, so `Nat`/`Int` model them exactly.
-/

/-- Processing mode chosen by the CLI layer: `"one-pass"` or `"two-pass"`. -/
inductive Mode where
  | onePass
  | twoPass
deriving DecidableEq

/-- A page image, reduced to its dimensions (`page.size` in PIL). -/
structure Image where
  w : Nat
  h : Nat
deriving DecidableEq

/-- `img.crop((left, top, right, bottom))` in PIL yields an image of size
`(right - left, bottom - top)`. -/
def crop (left top right bottom : Nat) : Image :=
  ⟨right - left, bottom - top⟩

/-- Fuelled bit-length recursion; the fuel only bounds the recursion
depth, and 1100 bits cover every value arising here (the products
rounded below stay far under `2 ^ 106`). -/
def bitLenGo : Nat → Nat → Nat
  | 0, _ => 0
  | fuel + 1, p => if p = 0 then 0 else bitLenGo fuel (p / 2) + 1

/-- Bit length of a natural number: `0` for `0`, else the position of the
highest set bit plus one.  Exact for every `p < 2 ^ 1100`. -/
def bitLen (p : Nat) : Nat :=
  bitLenGo 1100 p

/-- The IEEE-754 double nearest to `1.4` is `fl14sig / 2 ^ 52`: the exact
value `1.4 * 2 ^ 52 = 6305039478318694.4` rounds down to this integer
significand, so `fl(1.4)` is slightly BELOW `7 / 5`. -/
def fl14sig : Nat := 6305039478318694

/-- Round `p` to a multiple of `2 ^ s`, round-to-nearest with ties to
even (the IEEE-754 default rounding applied to the low `s` bits). -/
def rneAt (s p : Nat) : Nat :=
  if 2 ^ (s - 1) < p % 2 ^ s then (p / 2 ^ s + 1) * 2 ^ s
  else if p % 2 ^ s < 2 ^ (s - 1) then p / 2 ^ s * 2 ^ s
  else if p / 2 ^ s % 2 = 1 then (p / 2 ^ s + 1) * 2 ^ s
  else p / 2 ^ s * 2 ^ s

/-- Round a positive integer to 53 significant bits, nearest-even: the
value `rne53 p / 2 ^ 52` is the IEEE-754 double closest to `p / 2 ^ 52`
(no overflow or subnormals in the range used here). -/
def rne53 (p : Nat) : Nat :=
  if bitLen p ≤ 53 then p else rneAt (bitLen p - 53) p

/-- The CPython comparison `h > w * 1.4` for Python ints `h`, `w`: the
int `w` converts exactly to a double (`w < 2 ^ 53` here), the double
product `w * fl(1.4)` rounds to nearest-even at 53 significant bits, and
CPython then compares the int `h` with that double exactly.  So the test
is `h * 2 ^ 52 > rne53 (w * fl14sig)`. -/
def floatGt14 (h w : Nat) : Bool :=
  decide (rne53 (w * fl14sig) < h * 2 ^ 52)

/-- `split_vertical(page)` from the source: if `h > w * 1.4` — an
IEEE-754 double comparison, embedded exactly by `floatGt14` — split at
the vertical midpoint `mid = h // 2` into top `[0,mid]` and bottom
`[mid,h]` crops, else return the single page. -/
def split_vertical (page : Image) : List Image :=
  if floatGt14 page.h page.w then
    [crop 0 0 page.w (page.h / 2), crop 0 (page.h / 2) page.w page.h]
  else
    [page]

/-- The page label computed inside `_ocr_task`:
`printed_page = idx - start_page + 1` (a possibly negative Python int);
label `f"Page {printed_page}"` when `printed_page >= 1`, else
`f"[Front Matter p.{idx}]"`. -/
def pageLabel (idx startPage : Nat) : String :=
  let printed : Int := (idx : Int) - (startPage : Int) + 1
  if printed ≥ 1 then "Page " ++ toString printed
  else "[Front Matter p." ++ toString idx ++ "]"

lemma bitLenGo_zero (fuel : Nat) : bitLenGo fuel 0 = 0 := by
  cases fuel <;> rfl

lemma bitLenGo_bounds :
    ∀ (fuel p : Nat), p < 2 ^ fuel → 0 < p →
      2 ^ (bitLenGo fuel p - 1) ≤ p ∧ p < 2 ^ (bitLenGo fuel p) := by
  intro fuel
  induction fuel with
  | zero =>
    intro p hp hpos
    simp at hp
    omega
  | succ fuel ih =>
    intro p hp hpos
    have hne : p ≠ 0 := by omega
    simp only [bitLenGo, if_neg hne]
    by_cases hp2 : p / 2 = 0
    · have hp1 : p = 1 := by omega
      subst hp1
      rw [show (1 : Nat) / 2 = 0 from rfl, bitLenGo_zero]
      decide
    · have hps : 2 ^ (fuel + 1) = 2 * 2 ^ fuel := by
        rw [pow_succ]; ring
      have hple : p / 2 < 2 ^ fuel := by omega
      obtain ⟨h1, h2⟩ := ih (p / 2) hple (by omega)
      set k := bitLenGo fuel (p / 2) with hk
      have hk1 : 1 ≤ k := by
        by_contra hc
        have hk0 : k = 0 := by omega
        rw [hk0] at h2
        simp at h2
        omega
      have e0 : k - 1 + 1 = k := by omega
      have e1 : 2 ^ k = 2 * 2 ^ (k - 1) := by
        calc 2 ^ k = 2 ^ (k - 1 + 1) := by rw [e0]
          _ = 2 * 2 ^ (k - 1) := by rw [pow_succ]; ring
      have e2 : 2 ^ (k + 1) = 2 * 2 ^ k := by rw [pow_succ]; ring
      have e3 : k + 1 - 1 = k := by omega
      rw [e3]
      constructor
      · omega
      · omega

lemma rneAt_bounds (s p : Nat) (hs : 1 ≤ s) :
    rneAt s p ≤ p + 2 ^ (s - 1) ∧ p ≤ rneAt s p + 2 ^ (s - 1) := by
  have e0 : s - 1 + 1 = s := by omega
  have h2 : 2 ^ s = 2 * 2 ^ (s - 1) := by
    calc 2 ^ s = 2 ^ (s - 1 + 1) := by rw [e0]
      _ = 2 * 2 ^ (s - 1) := by rw [pow_succ]; ring
  have hdm : 2 ^ s * (p / 2 ^ s) + p % 2 ^ s = p := Nat.div_add_mod p (2 ^ s)
  have e1 : (p / 2 ^ s + 1) * 2 ^ s = 2 ^ s * (p / 2 ^ s) + 2 ^ s := by ring
  have e2 : p / 2 ^ s * 2 ^ s = 2 ^ s * (p / 2 ^ s) := by ring
  have hmod : p % 2 ^ s < 2 ^ s := Nat.mod_lt _ (by positivity)
  unfold rneAt
  split
  · omega
  · split
    · omega
    · split
      · omega
      · omega

lemma floatGt14_exact_agree (h w : Nat) (hw : w ≤ 2 ^ 49) :
    (7 * w < 5 * h → floatGt14 h w = true)
    ∧ (floatGt14 h w = true → 7 * w ≤ 5 * h) := by
  have hfl : fl14sig = 6305039478318694 := rfl
  have hp5 : 5 * (w * fl14sig) + 2 * w = 7 * 2 ^ 52 * w := by
    rw [hfl]; ring
  set p := w * fl14sig with hpdef
  have hplin : p = w * 6305039478318694 := by rw [hpdef, hfl]
  have hple : p ≤ 2 ^ 49 * 6305039478318694 := by
    rw [hplin]
    exact Nat.mul_le_mul_right _ hw
  have hfval : floatGt14 h w = true ↔ rne53 p < h * 2 ^ 52 := by
    simp only [floatGt14, ← hpdef, decide_eq_true_eq]
  by_cases hb : bitLen p ≤ 53
  · have hrp : rne53 p = p := by
      unfold rne53
      rw [if_pos hb]
    constructor
    · intro hx
      rw [hfval, hrp]
      omega
    · intro hf
      rw [hfval, hrp] at hf
      omega
  · have hppos : 0 < p := by
      by_contra hc
      apply hb
      have hp0 : p = 0 := by omega
      rw [hp0, show bitLen 0 = 0 from rfl]
      omega
    have hplt : p < 2 ^ 1100 := by
      have h102 : (2 : Nat) ^ 49 * 6305039478318694 < 2 ^ 102 := by norm_num
      have hle : (2 : Nat) ^ 102 ≤ 2 ^ 1100 :=
        Nat.pow_le_pow_right (by norm_num) (by norm_num)
      omega
    obtain ⟨hlow, hhigh⟩ := bitLenGo_bounds 1100 p hplt hppos
    have hbl : bitLen p = bitLenGo 1100 p := rfl
    rw [← hbl] at hlow hhigh
    set b := bitLen p with hbdef
    have hb54 : 54 ≤ b := by omega
    have hrp : rne53 p = rneAt (b - 53) p := by
      unfold rne53
      rw [← hbdef, if_neg hb]
    have hs1 : 1 ≤ b - 53 := by omega
    obtain ⟨hub, hlb⟩ := rneAt_bounds (b - 53) p hs1
    have hscale : 2 ^ (b - 53) * 2 ^ 52 = 2 ^ (b - 1) := by
      rw [← pow_add]
      congr 1
      omega
    have e0 : b - 53 - 1 + 1 = b - 53 := by omega
    have h2s : 2 ^ (b - 53) = 2 * 2 ^ (b - 53 - 1) := by
      calc 2 ^ (b - 53) = 2 ^ (b - 53 - 1 + 1) := by rw [e0]
        _ = 2 * 2 ^ (b - 53 - 1) := by rw [pow_succ]; ring
    have hXp : 2 * 2 ^ (b - 53 - 1) * 2 ^ 52 ≤ p := by
      calc 2 * 2 ^ (b - 53 - 1) * 2 ^ 52 = 2 ^ (b - 53) * 2 ^ 52 := by
            rw [← h2s]
        _ = 2 ^ (b - 1) := hscale
        _ ≤ p := hlow
    constructor
    · intro hx
      rw [hfval, hrp]
      omega
    · intro hf
      rw [hfval, hrp] at hf
      omega

/-- Claim C7 as written fails on the code; this is the amended claim: for
every image of width `w ≤ 2^49` and height `h`, the splitter returns two
chunks split at the vertical midpoint (top `[0,mid]`, bottom `[mid,h]`)
iff the IEEE-754 double comparison `h > w * 1.4` holds — the test the
code actually evaluates — and otherwise returns the single original image
as the only chunk; it is a total pure function, deterministic with no
failure mode.  The double test fires whenever `h > 1.4 * w` holds exactly
and only when `h ≥ 1.4 * w` holds exactly, so it deviates from the exact
comparison only at boundary images with `h = 1.4 * w`, where rounding can
make the code split. -/
theorem spec_C7 (page : Image) (hw : page.w ≤ 2 ^ 49) :
    ((split_vertical page).length = 2 ↔ floatGt14 page.h page.w = true)
    ∧ (floatGt14 page.h page.w = true →
        split_vertical page =
          [⟨page.w, page.h / 2⟩, ⟨page.w, page.h - page.h / 2⟩])
    ∧ (floatGt14 page.h page.w = false → split_vertical page = [page])
    ∧ (7 * page.w < 5 * page.h → floatGt14 page.h page.w = true)
    ∧ (floatGt14 page.h page.w = true → 7 * page.w ≤ 5 * page.h) := by
  obtain ⟨hag1, hag2⟩ := floatGt14_exact_agree page.h page.w hw
  refine ⟨?_, ?_, ?_, hag1, hag2⟩
  · by_cases hf : floatGt14 page.h page.w <;> simp [split_vertical, crop, hf]
  · intro hf
    simp [split_vertical, crop, hf]
  · intro hf
    simp [split_vertical, crop, hf]

/-- Counterexample to C7 as stated: the code splits an 85×119 page even
though `h > 1.4 * w` is FALSE in exact arithmetic (119 = 1.4 · 85): the
double product `85 * 1.4` evaluates to `118.99999999999999`, strictly
below 119, so the source's test fires. -/
theorem spec_C7_counterexample :
    split_vertical ⟨85, 119⟩ = [⟨85, 59⟩, ⟨85, 60⟩]
    ∧ ¬ ((119 : ℚ) > 1.4 * 85) := by
  constructor
  · rfl
  · norm_num

/-- Witness for the amended C7 at the spec's two examples: a 600×1000
image splits into two 600×500 chunks (here the double test agrees with
the exact test, since `600 * 1.4` rounds to exactly `840.0`); a 600×700
image stays whole. -/
theorem spec_C7_witness :
    split_vertical ⟨600, 1000⟩ = [⟨600, 500⟩, ⟨600, 500⟩]
    ∧ split_vertical ⟨600, 700⟩ = [⟨600, 700⟩] :=
  ⟨(spec_C7 ⟨600, 1000⟩ (by norm_num)).2.1 (by decide),
   (spec_C7 ⟨600, 700⟩ (by norm_num)).2.2.1 (by decide)⟩

/-- Claim C8: for every `page_index ≥ 1` and `start_page ≥ 1`, the page's
label is `"Page {page_index - start_page + 1}"` when
`page_index - start_page + 1 ≥ 1`, and `"[Front Matter p.{page_index}]"`
otherwise. -/
theorem spec_C8 (idx startPage : Nat) (hidx : 1 ≤ idx) (hs : 1 ≤ startPage) :
    ((1 : Int) ≤ (idx : Int) - (startPage : Int) + 1 →
      pageLabel idx startPage =
        "Page " ++ toString ((idx : Int) - (startPage : Int) + 1))
    ∧ ((idx : Int) - (startPage : Int) + 1 < 1 →
      pageLabel idx startPage = "[Front Matter p." ++ toString idx ++ "]") := by
  unfold pageLabel
  constructor
  · intro hge
    rw [if_pos hge]
  · intro hlt
    rw [if_neg (by omega)]

/-- Witness for C8 at the spec's examples with `start_page = 6`:
index 3 is front matter, index 6 is printed page 1, index 10 is printed
page 5. -/
theorem spec_C8_witness :
    pageLabel 3 6 = "[Front Matter p.3]"
    ∧ pageLabel 6 6 = "Page 1"
    ∧ pageLabel 10 6 = "Page 5" :=
  ⟨(spec_C8 3 6 (by decide) (by decide)).2 (by decide),
   (spec_C8 6 6 (by decide) (by decide)).1 (by decide),
   (spec_C8 10 6 (by decide) (by decide)).1 (by decide)⟩

/-- Left strip: drop leading whitespace characters, as in Python `lstrip`.
`Char.isWhitespace` models Python's whitespace class. -/
def pyStripLeft : List Char → List Char
  | [] => []
  | c :: rest => if c.isWhitespace then pyStripLeft rest else c :: rest

/-- Right strip: drop trailing whitespace characters, as in Python
`rstrip`. -/
def pyStripRight : List Char → List Char
  | [] => []
  | c :: rest =>
    if pyStripRight rest = [] then (if c.isWhitespace then [] else [c])
    else c :: pyStripRight rest

/-- Python `str.strip()`: remove whitespace from both ends. -/
def pyStrip (l : List Char) : List Char :=
  pyStripRight (pyStripLeft l)

/-- Python `sep.join(xs)`: the pieces concatenated with `sep` between
consecutive pieces. -/
def pyJoin (sep : List Char) : List (List Char) → List Char
  | [] => []
  | [x] => x
  | x :: xs => x ++ sep ++ pyJoin sep xs

/-- One response of the remote model to an OCR request, as classified by
the source's retry loop: a response with no candidates (the in-band check
and the `IndexError` handler treat this identically), a successful
response carrying the `parts` list (each part's `.text` may be `None`),
an exception whose message contains `"DeadlineExceeded"` or `"504"`, or
any other exception. -/
inductive OcrResp where
  | empty
  | success (parts : List (Option (List Char)))
  | timeoutErr
  | otherErr

/-- How one chunk's retry loop ends: text appended to `out` (possibly the
empty-string fallback), a propagated timeout, a propagated other error, or
the loop body never ran (only possible when `max_retries = 0`), appending
nothing. -/
inductive ChunkOutcome where
  | ok (t : List Char)
  | raisedTimeout
  | raisedOther
  | skipped
deriving DecidableEq

/-- Trace of one chunk's retry loop: number of `generate_content`
invocations, the `time.sleep` durations in order, and the outcome. -/
structure ChunkTrace where
  calls : Nat
  sleeps : List Nat
  outcome : ChunkOutcome
deriving DecidableEq

/-- The per-chunk retry loop of `ocr_page`, iterating over the remaining
attempt numbers of `range(max_retries)`.  A successful response appends
`"".join(p.text or "" for p in parts).strip()`; an empty response sleeps
`(attempt+1)*10` and retries, or on the last attempt appends the empty
string; a timeout sleeps and retries, or on the last attempt re-raises;
any other error re-raises immediately. -/
def ocrChunkGo (op : Nat → OcrResp) (maxRetries : Nat) : List Nat → ChunkTrace
  | [] => ⟨0, [], .skipped⟩
  | attempt :: rest =>
    match op attempt with
    | .success parts =>
        ⟨1, [], .ok (pyStrip (parts.map (fun p => p.getD [])).flatten)⟩
    | .empty =>
        if attempt < maxRetries - 1 then
          let r := ocrChunkGo op maxRetries rest
          ⟨r.calls + 1, (attempt + 1) * 10 :: r.sleeps, r.outcome⟩
        else ⟨1, [], .ok []⟩
    | .timeoutErr =>
        if attempt < maxRetries - 1 then
          let r := ocrChunkGo op maxRetries rest
          ⟨r.calls + 1, (attempt + 1) * 10 :: r.sleeps, r.outcome⟩
        else ⟨1, [], .raisedTimeout⟩
    | .otherErr => ⟨1, [], .raisedOther⟩

/-- The retry loop for one chunk, started on `range(max_retries)` exactly
as `for attempt in range(max_retries)` does. -/
def ocrChunkTrace (op : Nat → OcrResp) (maxRetries : Nat) : ChunkTrace :=
  ocrChunkGo op maxRetries (List.range maxRetries)

/-- One response of the remote model to a correction request: no
candidates (also covering the `IndexError`/`AttributeError` handler), a
successful response carrying `r.text`, a timeout-classified exception, or
any other exception. -/
inductive CorrResp where
  | empty
  | success (t : List Char)
  | timeoutErr
  | otherErr

/-- How `correct_text` ends: a returned string, a propagated timeout, a
propagated other error, or the loop fell through and the function
returned `None` (only possible when `max_retries = 0`). -/
inductive CorrOutcome where
  | ok (t : List Char)
  | raisedTimeout
  | raisedOther
  | retNone
deriving DecidableEq

/-- Trace of `correct_text`: invocation count, sleep durations, outcome. -/
structure CorrTrace where
  calls : Nat
  sleeps : List Nat
  outcome : CorrOutcome
deriving DecidableEq

/-- The retry loop of `correct_text`, iterating over the remaining attempt
numbers of `range(max_retries)`.  A successful response returns
`r.text.strip()`; an empty response sleeps and retries, or on the last
attempt returns the raw text unchanged; a timeout sleeps and retries, or
on the last attempt re-raises; any other error re-raises immediately. -/
def correctGo (op : Nat → CorrResp) (raw : List Char) (maxRetries : Nat) :
    List Nat → CorrTrace
  | [] => ⟨0, [], .retNone⟩
  | attempt :: rest =>
    match op attempt with
    | .success t => ⟨1, [], .ok (pyStrip t)⟩
    | .empty =>
        if attempt < maxRetries - 1 then
          let r := correctGo op raw maxRetries rest
          ⟨r.calls + 1, (attempt + 1) * 10 :: r.sleeps, r.outcome⟩
        else ⟨1, [], .ok raw⟩
    | .timeoutErr =>
        if attempt < maxRetries - 1 then
          let r := correctGo op raw maxRetries rest
          ⟨r.calls + 1, (attempt + 1) * 10 :: r.sleeps, r.outcome⟩
        else ⟨1, [], .raisedTimeout⟩
    | .otherErr => ⟨1, [], .raisedOther⟩

/-- `correct_text(model, raw, max_retries)` from the source, as a trace. -/
def correct_text (op : Nat → CorrResp) (raw : List Char) (maxRetries : Nat) :
    CorrTrace :=
  correctGo op raw maxRetries (List.range maxRetries)

/-- Claim C3: an operation that always returns an empty response, under
`max_retries = 3`, is invoked exactly 3 times with sleeps of 10 s and 20 s
between attempts, then yields the caller-supplied fallback — the empty
string for an OCR chunk, the original raw text for correction — and never
raises. -/
theorem spec_C3 (raw : List Char) :
    ocrChunkTrace (fun _ => OcrResp.empty) 3 = ⟨3, [10, 20], .ok []⟩
    ∧ correct_text (fun _ => CorrResp.empty) raw 3 = ⟨3, [10, 20], .ok raw⟩ := by
  constructor
  · rfl
  · rfl

/-- Claim C4: an operation that always fails with a timeout-classified
error, under `max_retries = 3`, is invoked exactly 3 times with backoff
waits `(attempt+1)*10` (10 s then 20 s), then the timeout is propagated;
an operation whose first invocation fails with a non-timeout,
non-empty-response error is propagated immediately after a single
invocation, with no retry and no sleep. -/
theorem spec_C4 :
    (ocrChunkTrace (fun _ => OcrResp.timeoutErr) 3 = ⟨3, [10, 20], .raisedTimeout⟩)
    ∧ (∀ raw, correct_text (fun _ => CorrResp.timeoutErr) raw 3 =
        ⟨3, [10, 20], .raisedTimeout⟩)
    ∧ (∀ op, op 0 = OcrResp.otherErr →
        ocrChunkTrace op 3 = ⟨1, [], .raisedOther⟩)
    ∧ (∀ op raw, op 0 = CorrResp.otherErr →
        correct_text op raw 3 = ⟨1, [], .raisedOther⟩) := by
  refine ⟨rfl, fun raw => rfl, fun op h => ?_, fun op raw h => ?_⟩
  · show ocrChunkGo op 3 [0, 1, 2] = _
    simp [ocrChunkGo, h]
  · show correctGo op raw 3 [0, 1, 2] = _
    simp [correctGo, h]

/-- Witness for C4: the always-other-error oracle is dispatched exactly
once for both the OCR chunk loop and the correction loop. -/
theorem spec_C4_witness :
    ocrChunkTrace (fun _ => OcrResp.otherErr) 3 = ⟨1, [], .raisedOther⟩
    ∧ correct_text (fun _ => CorrResp.otherErr) [] 3 = ⟨1, [], .raisedOther⟩ :=
  ⟨spec_C4.2.2.1 (fun _ => OcrResp.otherErr) rfl,
   spec_C4.2.2.2 (fun _ => CorrResp.otherErr) [] rfl⟩

lemma pyStripLeft_length_le (l : List Char) :
    (pyStripLeft l).length ≤ l.length := by
  induction l with
  | nil => simp [pyStripLeft]
  | cons c rest ih =>
    by_cases hc : c.isWhitespace
    · simp only [pyStripLeft, if_pos hc]
      exact Nat.le_succ_of_le ih
    · simp [pyStripLeft, if_neg hc]

lemma pyStripRight_length_le (l : List Char) :
    (pyStripRight l).length ≤ l.length := by
  induction l with
  | nil => simp [pyStripRight]
  | cons c rest ih =>
    simp only [pyStripRight, List.length_cons]
    split
    · split
      · simp
      · simp
    · simp only [List.length_cons]
      omega

lemma pyStripLeft_idem (l : List Char) :
    pyStripLeft (pyStripLeft l) = pyStripLeft l := by
  induction l with
  | nil => rfl
  | cons c rest ih =>
    by_cases hc : c.isWhitespace
    · simp only [pyStripLeft, if_pos hc]
      exact ih
    · simp [pyStripLeft, if_neg hc]

lemma pyStripLeft_head_not_ws {c : Char} {t : List Char}
    (h : pyStripLeft (c :: t) = c :: t) : ¬ c.isWhitespace := by
  intro hc
  simp only [pyStripLeft, if_pos hc] at h
  have h1 := pyStripLeft_length_le t
  have h2 := congrArg List.length h
  simp only [List.length_cons] at h2
  omega

lemma pyStripRight_cons_shape (c : Char) (rest : List Char) :
    pyStripRight (c :: rest) = [] ∨
    ∃ r, pyStripRight (c :: rest) = c :: r := by
  simp only [pyStripRight]
  split
  · split
    · exact Or.inl rfl
    · exact Or.inr ⟨[], rfl⟩
  · exact Or.inr ⟨_, rfl⟩

lemma pyStripLeft_of_stripRight {m : List Char} (hm : pyStripLeft m = m) :
    pyStripLeft (pyStripRight m) = pyStripRight m := by
  cases m with
  | nil => rfl
  | cons c rest =>
    have hc : ¬ c.isWhitespace := pyStripLeft_head_not_ws hm
    rcases pyStripRight_cons_shape c rest with h | ⟨r, h⟩
    · rw [h]; rfl
    · rw [h]
      simp [pyStripLeft, if_neg hc]

lemma pyStripRight_idem (l : List Char) :
    pyStripRight (pyStripRight l) = pyStripRight l := by
  induction l with
  | nil => rfl
  | cons c rest ih =>
    simp only [pyStripRight]
    split
    · split
      · rfl
      · next hc =>
        simp [pyStripRight, if_neg hc]
    · next hr =>
      simp only [pyStripRight, ih, if_neg hr]

lemma pyStrip_idem (l : List Char) : pyStrip (pyStrip l) = pyStrip l := by
  unfold pyStrip
  rw [pyStripLeft_of_stripRight (pyStripLeft_idem l), pyStripRight_idem]

lemma pyStrip_fix_left {t : List Char} (h : pyStrip t = t) :
    pyStripLeft t = t := by
  have h2 : (pyStripRight (pyStripLeft t)).length = t.length := by
    rw [show pyStripRight (pyStripLeft t) = t from h]
  have h4 := pyStripRight_length_le (pyStripLeft t)
  have h1 := pyStripLeft_length_le t
  have hlen : (pyStripLeft t).length = t.length := by omega
  clear h2 h4 h1 h
  induction t with
  | nil => rfl
  | cons c rest ih =>
    by_cases hc : c.isWhitespace
    · simp only [pyStripLeft, if_pos hc] at hlen ⊢
      have := pyStripLeft_length_le rest
      simp only [List.length_cons] at hlen
      omega
    · simp [pyStripLeft, if_neg hc]

lemma pyStrip_fix_right {t : List Char} (h : pyStrip t = t) :
    pyStripRight t = t := by
  have hl := pyStrip_fix_left h
  unfold pyStrip at h
  rw [hl] at h
  exact h

lemma pyStripLeft_append {t r : List Char} (ht : pyStripLeft t = t)
    (hne : t ≠ []) : pyStripLeft (t ++ r) = t ++ r := by
  cases t with
  | nil => exact absurd rfl hne
  | cons c rest =>
    have hc : ¬ c.isWhitespace := pyStripLeft_head_not_ws ht
    simp [pyStripLeft, if_neg hc]

lemma pyStripRight_append {x m : List Char} (hm : pyStripRight m = m)
    (hne : m ≠ []) : pyStripRight (x ++ m) = x ++ m := by
  induction x with
  | nil => simpa using hm
  | cons c x' ih =>
    have hxm : x' ++ m ≠ [] := by
      intro hcontra
      exact hne (List.append_eq_nil.mp hcontra).2
    show pyStripRight (c :: (x' ++ m)) = c :: (x' ++ m)
    simp only [pyStripRight, ih, if_neg hxm]

lemma pyJoin_ne_nil {sep : List Char} {ts : List (List Char)}
    (hne : ts ≠ []) (hall : ∀ t ∈ ts, t ≠ []) : pyJoin sep ts ≠ [] := by
  cases ts with
  | nil => exact absurd rfl hne
  | cons x xs =>
    cases xs with
    | nil =>
      simpa [pyJoin] using hall x (by simp)
    | cons y ys =>
      simp only [pyJoin]
      intro hcontra
      exact hall x (by simp) (List.append_eq_nil.mp
        (List.append_eq_nil.mp hcontra).1).1

lemma pyStripRight_pyJoin (sep : List Char) {ts : List (List Char)}
    (hne : ts ≠ []) (hall : ∀ t ∈ ts, pyStripRight t = t ∧ t ≠ []) :
    pyStripRight (pyJoin sep ts) = pyJoin sep ts := by
  induction ts with
  | nil => exact absurd rfl hne
  | cons x xs ih =>
    cases xs with
    | nil => exact (hall x (by simp)).1
    | cons y ys =>
      have hJ : pyStripRight (pyJoin sep (y :: ys)) = pyJoin sep (y :: ys) :=
        ih (by simp) (fun t ht => hall t (by simp [ht]))
      have hJne : pyJoin sep (y :: ys) ≠ [] :=
        pyJoin_ne_nil (by simp) (fun t ht => (hall t (by simp [ht])).2)
      show pyStripRight ((x ++ sep) ++ pyJoin sep (y :: ys))
          = (x ++ sep) ++ pyJoin sep (y :: ys)
      exact pyStripRight_append hJ hJne

lemma pyStripLeft_pyJoin (sep : List Char) {ts : List (List Char)}
    (hne : ts ≠ []) (hall : ∀ t ∈ ts, pyStripLeft t = t ∧ t ≠ []) :
    pyStripLeft (pyJoin sep ts) = pyJoin sep ts := by
  cases ts with
  | nil => exact absurd rfl hne
  | cons x xs =>
    cases xs with
    | nil => exact (hall x (by simp)).1
    | cons y ys =>
      show pyStripLeft (x ++ sep ++ pyJoin sep (y :: ys))
          = x ++ sep ++ pyJoin sep (y :: ys)
      rw [List.append_assoc]
      exact pyStripLeft_append (hall x (by simp)).1 (hall x (by simp)).2

lemma pyStrip_pyJoin (sep : List Char) {ts : List (List Char)}
    (hne : ts ≠ []) (hall : ∀ t ∈ ts, pyStrip t = t ∧ t ≠ []) :
    pyStrip (pyJoin sep ts) = pyJoin sep ts := by
  have hl := pyStripLeft_pyJoin sep hne
    (fun t ht => ⟨pyStrip_fix_left (hall t ht).1, (hall t ht).2⟩)
  have hr := pyStripRight_pyJoin sep hne
    (fun t ht => ⟨pyStrip_fix_right (hall t ht).1, (hall t ht).2⟩)
  unfold pyStrip
  rw [hl, hr]

lemma ocrChunkGo_ok_strip (op : Nat → OcrResp) (maxRetries : Nat) :
    ∀ (l : List Nat) (t : List Char),
      (ocrChunkGo op maxRetries l).outcome = .ok t → pyStrip t = t := by
  intro l
  induction l with
  | nil => intro t h; exact absurd h (by simp [ocrChunkGo])
  | cons attempt rest ih =>
    intro t h
    cases hop : op attempt with
    | success parts =>
      simp only [ocrChunkGo, hop, ChunkOutcome.ok.injEq] at h
      rw [← h]
      exact pyStrip_idem _
    | empty =>
      simp only [ocrChunkGo, hop] at h
      by_cases hlt : attempt < maxRetries - 1
      · rw [if_pos hlt] at h
        exact ih t h
      · rw [if_neg hlt] at h
        simp only [ChunkOutcome.ok.injEq] at h
        rw [← h]
        rfl
    | timeoutErr =>
      simp only [ocrChunkGo, hop] at h
      by_cases hlt : attempt < maxRetries - 1
      · rw [if_pos hlt] at h
        exact ih t h
      · rw [if_neg hlt] at h
        exact absurd h (by simp)
    | otherErr =>
      simp only [ocrChunkGo, hop] at h
      exact absurd h (by simp)

lemma ocrChunkGo_not_skipped (op : Nat → OcrResp) (maxRetries : Nat) :
    ∀ (n k : Nat), k < maxRetries → n = maxRetries - k →
      (ocrChunkGo op maxRetries (List.range' k n)).outcome ≠ .skipped := by
  intro n
  induction n with
  | zero => intro k hk hn; omega
  | succ n ih =>
    intro k hk hn
    rw [List.range'_succ]
    cases hop : op k with
    | success parts => simp [ocrChunkGo, hop]
    | empty =>
      simp only [ocrChunkGo, hop]
      by_cases hlt : k < maxRetries - 1
      · rw [if_pos hlt]
        exact ih (k + 1) (by omega) (by omega)
      · rw [if_neg hlt]
        simp
    | timeoutErr =>
      simp only [ocrChunkGo, hop]
      by_cases hlt : k < maxRetries - 1
      · rw [if_pos hlt]
        exact ih (k + 1) (by omega) (by omega)
      · rw [if_neg hlt]
        simp
    | otherErr => simp [ocrChunkGo, hop]

lemma correctGo_not_retNone (op : Nat → CorrResp) (raw : List Char)
    (maxRetries : Nat) :
    ∀ (n k : Nat), k < maxRetries → n = maxRetries - k →
      (correctGo op raw maxRetries (List.range' k n)).outcome ≠ .retNone := by
  intro n
  induction n with
  | zero => intro k hk hn; omega
  | succ n ih =>
    intro k hk hn
    rw [List.range'_succ]
    cases hop : op k with
    | success t => simp [correctGo, hop]
    | empty =>
      simp only [correctGo, hop]
      by_cases hlt : k < maxRetries - 1
      · rw [if_pos hlt]
        exact ih (k + 1) (by omega) (by omega)
      · rw [if_neg hlt]
        simp
    | timeoutErr =>
      simp only [correctGo, hop]
      by_cases hlt : k < maxRetries - 1
      · rw [if_pos hlt]
        exact ih (k + 1) (by omega) (by omega)
      · rw [if_neg hlt]
        simp
    | otherErr => simp [correctGo, hop]

/-- Claim C10: for every correction oracle, input text and
`max_retries ≥ 1`, `correct_text` ends by returning a string or by
propagating an error — the loop never falls through to return `None`;
and with `max_retries = 0` the loop body never runs and `None` is
returned, so the totality guarantee genuinely needs `max_retries ≥ 1`. -/
theorem spec_C10 :
    (∀ (op : Nat → CorrResp) (raw : List Char) (maxRetries : Nat),
      1 ≤ maxRetries → (correct_text op raw maxRetries).outcome ≠ .retNone)
    ∧ (∀ (op : Nat → CorrResp) (raw : List Char),
      (correct_text op raw 0).outcome = .retNone) := by
  constructor
  · intro op raw maxRetries hm
    unfold correct_text
    rw [List.range_eq_range']
    exact correctGo_not_retNone op raw maxRetries maxRetries 0 (by omega) (by omega)
  · intro op raw
    rfl

/-- Witness for C10: with one allowed attempt the always-empty oracle does
not fall through, while zero allowed attempts fall through to `None`. -/
theorem spec_C10_witness :
    (correct_text (fun _ => CorrResp.empty) [] 1).outcome ≠ .retNone
    ∧ (correct_text (fun _ => CorrResp.empty) [] 0).outcome = .retNone :=
  ⟨spec_C10.1 (fun _ => CorrResp.empty) [] 1 (by decide),
   spec_C10.2 (fun _ => CorrResp.empty) []⟩

/-- Classification of an exception propagating out of a retry loop. -/
inductive ErrKind where
  | timeout
  | otherE
deriving DecidableEq

/-- Trace of `ocr_page` on one page: total `generate_content` invocations
across chunks, and either the page's raw text or the propagated error. -/
structure OcrPageTrace where
  calls : Nat
  result : Except ErrKind (List Char)

/-- The chunk loop of `ocr_page`: chunk `i` of the remaining `n` chunks is
OCRed through its retry loop; its text (or empty fallback) is appended to
`out`, while a propagated exception aborts the remaining chunks.  An
invocation count is accumulated. -/
def ocrChunks (op : Nat → Nat → OcrResp) (maxRetries : Nat) :
    (i n : Nat) → Nat × Except ErrKind (List (List Char))
  | _, 0 => (0, .ok [])
  | i, n + 1 =>
    match (ocrChunkTrace (fun a => op i a) maxRetries).outcome with
    | .ok s =>
      ((ocrChunkTrace (fun a => op i a) maxRetries).calls
          + (ocrChunks op maxRetries (i + 1) n).1,
        (ocrChunks op maxRetries (i + 1) n).2.map fun l => s :: l)
    | .raisedTimeout =>
      ((ocrChunkTrace (fun a => op i a) maxRetries).calls, .error .timeout)
    | .raisedOther =>
      ((ocrChunkTrace (fun a => op i a) maxRetries).calls, .error .otherE)
    | .skipped =>
      ((ocrChunkTrace (fun a => op i a) maxRetries).calls
          + (ocrChunks op maxRetries (i + 1) n).1,
        (ocrChunks op maxRetries (i + 1) n).2)

/-- `ocr_page(model, img, max_retries)` from the source: split the image,
OCR each chunk with retries, and return `"\n".join(out)` (or propagate an
exception).  The model oracle `op` maps chunk position and attempt number
to the remote response. -/
def ocr_page (op : Nat → Nat → OcrResp) (img : Image) (maxRetries : Nat) :
    OcrPageTrace :=
  ⟨(ocrChunks op maxRetries 0 (split_vertical img).length).1,
   Except.map (pyJoin ['\n'])
     (ocrChunks op maxRetries 0 (split_vertical img).length).2⟩

lemma split_vertical_length_pos (img : Image) :
    1 ≤ (split_vertical img).length := by
  unfold split_vertical
  split <;> simp

lemma ocrChunks_ok (op : Nat → Nat → OcrResp) (maxRetries : Nat)
    (hm : 1 ≤ maxRetries) :
    ∀ (n i : Nat) (l : List (List Char)),
      (ocrChunks op maxRetries i n).2 = .ok l →
      l.length = n ∧ ∀ t ∈ l, pyStrip t = t := by
  intro n
  induction n with
  | zero =>
    intro i l h
    simp only [ocrChunks] at h
    cases h
    simp
  | succ n ih =>
    intro i l h
    have hnsk := ocrChunkGo_not_skipped (fun a => op i a) maxRetries
      maxRetries 0 (by omega) (by omega)
    rw [← List.range_eq_range'] at hnsk
    simp only [ocrChunks] at h
    cases hout : (ocrChunkTrace (fun a => op i a) maxRetries).outcome with
    | ok s =>
      rw [hout] at h
      cases hrest : (ocrChunks op maxRetries (i + 1) n).2 with
      | error e =>
        rw [hrest] at h
        exact absurd h (by simp [Except.map])
      | ok l' =>
        rw [hrest] at h
        simp only [Except.map, Except.ok.injEq] at h
        obtain ⟨hlen, hstrip⟩ := ih (i + 1) l' hrest
        rw [← h]
        refine ⟨by simp [hlen], ?_⟩
        intro t ht
        rcases List.mem_cons.mp ht with hts | htl
        · rw [hts]
          exact ocrChunkGo_ok_strip (fun a => op i a) maxRetries _ s hout
        · exact hstrip t htl
    | raisedTimeout =>
      rw [hout] at h
      exact absurd h (by simp)
    | raisedOther =>
      rw [hout] at h
      exact absurd h (by simp)
    | skipped => exact absurd hout hnsk

/-- Claim C6 as written fails on the code; this is the amended claim: for
every page, the raw text is the chunk outputs concatenated in chunk order
with newline separators, where each chunk output is individually trimmed
(a successful chunk's text is `strip`ped, a fallback chunk contributes
the empty string); the concatenation itself is NOT re-trimmed, so the
page text has no leading or trailing whitespace only when every chunk's
text is nonempty — a fallback (or whitespace-only) chunk leaves a leading
or trailing newline on the page text. -/
theorem spec_C6 (op : Nat → Nat → OcrResp) (img : Image)
    (maxRetries : Nat) (s : List Char) (hm : 1 ≤ maxRetries)
    (h : (ocr_page op img maxRetries).result = .ok s) :
    ∃ ts : List (List Char),
      ts.length = (split_vertical img).length
      ∧ s = pyJoin ['\n'] ts
      ∧ (∀ t ∈ ts, pyStrip t = t)
      ∧ ((∀ t ∈ ts, t ≠ []) → pyStrip s = s) := by
  unfold ocr_page at h
  simp only at h
  cases hc : (ocrChunks op maxRetries 0 (split_vertical img).length).2 with
  | error e =>
    rw [hc] at h
    exact absurd h (by simp [Except.map])
  | ok l =>
    rw [hc] at h
    simp only [Except.map, Except.ok.injEq] at h
    obtain ⟨hlen, hstrip⟩ := ocrChunks_ok op maxRetries hm _ 0 l hc
    refine ⟨l, hlen, h.symm, hstrip, ?_⟩
    intro hne
    rw [← h]
    apply pyStrip_pyJoin
    · have hpos := split_vertical_length_pos img
      intro hnil
      rw [hnil] at hlen
      simp only [List.length_nil] at hlen
      omega
    · exact fun t ht => ⟨hstrip t ht, hne t ht⟩

/-- Counterexample to C6 as stated: on a 600×1000 page (two chunks) where
the first chunk OCRs to `"a"` and the second chunk exhausts its retries
on empty responses (so falls back to the empty string), the page raw text
is `"a\n"` — it carries a trailing newline, i.e. the page text is not
trimmed of surrounding whitespace. -/
theorem spec_C6_counterexample :
    (ocr_page
        (fun i _ => if i = 0 then OcrResp.success [some ['a']] else OcrResp.empty)
        ⟨600, 1000⟩ 3).result = .ok ['a', '\n']
    ∧ pyStrip ['a', '\n'] ≠ ['a', '\n'] := by
  constructor
  · rfl
  · decide

/-- Witness for the amended C6: a page whose two chunks both OCR to `"a"`
yields raw text `"a\na"`, which decomposes as newline-joined trimmed
nonempty chunk texts. -/
theorem spec_C6_witness :
    ∃ ts : List (List Char),
      ts.length = (split_vertical ⟨600, 1000⟩).length
      ∧ ['a', '\n', 'a'] = pyJoin ['\n'] ts
      ∧ (∀ t ∈ ts, pyStrip t = t)
      ∧ ((∀ t ∈ ts, t ≠ []) → pyStrip ['a', '\n', 'a'] = ['a', '\n', 'a']) :=
  spec_C6 (fun _ _ => OcrResp.success [some ['a']]) ⟨600, 1000⟩ 3
    ['a', '\n', 'a'] (by decide) rfl

/-- A per-page OCR result tuple `(idx, page_label, raw)` as returned by
`_ocr_task`. -/
abbrev TaskRes := Nat × String × List Char

/-- The comparison key used by `batch_results.sort(key=lambda x: x[0])`:
non-strict order on the page index. -/
def keyLe (a b : TaskRes) : Prop := a.1 ≤ b.1

/-- Strict page-index order, used to state that a list of results is in
strictly ascending page order. -/
def keyLt (a b : TaskRes) : Prop := a.1 < b.1

instance : DecidableRel keyLe := fun a b => Nat.decLe a.1 b.1

instance : DecidableRel keyLt := fun a b => Nat.decLt a.1 b.1

instance : IsTotal TaskRes keyLe := ⟨fun a b => Nat.le_total a.1 b.1⟩

instance : IsTrans TaskRes keyLe := ⟨fun _ _ _ => Nat.le_trans⟩

/-- `batch_results.sort(key=lambda x: x[0])` from `run_pipeline`: sort the
collected per-page results by page index.  Python's sort is a stable
comparison sort; on results with pairwise distinct page indices any
comparison sort produces the same list, so a concrete sort models it. -/
def sortResults (l : List TaskRes) : List TaskRes :=
  List.insertionSort keyLe l

lemma sorted_perm_eq :
    ∀ (l₂ : List TaskRes), List.Pairwise keyLt l₂ →
      ∀ (l₁ : List TaskRes), l₁.Perm l₂ → List.Pairwise keyLe l₁ → l₁ = l₂ := by
  intro l₂
  induction l₂ with
  | nil =>
    intro _ l₁ hperm _
    exact hperm.eq_nil
  | cons b t₂ ih =>
    intro hpw₂ l₁ hperm hpw₁
    cases l₁ with
    | nil =>
      have := hperm.length_eq
      simp at this
    | cons a t₁ =>
      have hab : a = b := by
        by_contra hne
        have hat2 : a ∈ t₂ := by
          have ha2 : a ∈ b :: t₂ := hperm.mem_iff.mp (by simp)
          rcases List.mem_cons.mp ha2 with hc | hc
          · exact absurd hc hne
          · exact hc
        have hbt1 : b ∈ t₁ := by
          have hb1 : b ∈ a :: t₁ := hperm.mem_iff.mpr (by simp)
          rcases List.mem_cons.mp hb1 with hc | hc
          · exact absurd hc.symm hne
          · exact hc
        have h1 : keyLt b a := (List.pairwise_cons.mp hpw₂).1 a hat2
        have h2 : keyLe a b := (List.pairwise_cons.mp hpw₁).1 b hbt1
        simp only [keyLt] at h1
        simp only [keyLe] at h2
        omega
      subst hab
      have htail := ih (List.pairwise_cons.mp hpw₂).2 t₁ hperm.cons_inv
        (List.pairwise_cons.mp hpw₁).2
      rw [htail]

/-- Claim C1: whatever order the worker pool completes a batch's OCR tasks
in — i.e. for every permutation `completed` of the batch's result list
`tasks`, whose page indices are strictly ascending and pairwise distinct —
the sort step restores exactly the ascending-page-index list `tasks`
before correction or appending, so the assembled document is in ascending
page-index order. -/
theorem spec_C1 (tasks completed : List TaskRes)
    (hperm : completed.Perm tasks) (hsorted : List.Pairwise keyLt tasks) :
    sortResults completed = tasks
    ∧ List.Pairwise keyLt (sortResults completed) := by
  have hs : List.Pairwise keyLe (sortResults completed) :=
    List.sorted_insertionSort keyLe completed
  have hp : (sortResults completed).Perm tasks :=
    (List.perm_insertionSort keyLe completed).trans hperm
  have heq := sorted_perm_eq tasks hsorted (sortResults completed) hp hs
  exact ⟨heq, heq ▸ hsorted⟩

/-- Witness for C1 at the spec's example: pages `{5,3,4}` completing in the
order `5,3,4` are sorted back to `3,4,5`. -/
theorem spec_C1_witness :
    sortResults [(5, "Page 5", ['e']), (3, "Page 3", ['c']), (4, "Page 4", ['d'])]
      = [(3, "Page 3", ['c']), (4, "Page 4", ['d']), (5, "Page 5", ['e'])]
    ∧ List.Pairwise keyLt
        (sortResults
          [(5, "Page 5", ['e']), (3, "Page 3", ['c']), (4, "Page 4", ['d'])]) :=
  spec_C1
    [(3, "Page 3", ['c']), (4, "Page 4", ['d']), (5, "Page 5", ['e'])]
    [(5, "Page 5", ['e']), (3, "Page 3", ['c']), (4, "Page 4", ['d'])]
    (by decide) (by decide)

/-- Python `range(start, stop, step)` for a positive step: the ascending
list `start, start+step, …` strictly below `stop` (empty when `step = 0`,
which Python instead rejects; the pipeline only uses `step ≥ 1`). -/
def pyRange (start stop step : Nat) : List Nat :=
  if h : 0 < step ∧ start < stop then
    start :: pyRange (start + step) stop step
  else []
termination_by stop - start
decreasing_by omega

/-- The batch windows of `run_pipeline`:
`for batch_start in range(1, total_pages + 1, batch_size)` with
`batch_end = min(batch_start + batch_size - 1, total_pages)`. -/
def batchWindows (total bs : Nat) : List (Nat × Nat) :=
  (pyRange 1 (total + 1) bs).map fun s => (s, min (s + bs - 1) total)

lemma batchWindows_from (bs total : Nat) (hbs : 1 ≤ bs) :
    ∀ (n s : Nat), total + 1 - s ≤ n → 1 ≤ s → s ≤ total →
      (((pyRange s (total + 1) bs).map
            (fun x => (x, min (x + bs - 1) total))).flatMap
          (fun w => List.range' w.1 (w.2 + 1 - w.1))
        = List.range' s (total + 1 - s))
      ∧ (∀ w ∈ (pyRange s (total + 1) bs).map
            (fun x => (x, min (x + bs - 1) total)),
          w.1 ≤ w.2 ∧ w.2 + 1 - w.1 ≤ bs)
      ∧ (∀ w ∈ ((pyRange s (total + 1) bs).map
            (fun x => (x, min (x + bs - 1) total))).dropLast,
          w.2 + 1 - w.1 = bs) := by
  intro n
  induction n with
  | zero => intro s hn hs1 hs2; omega
  | succ n ih =>
    intro s hn hs1 hs2
    rw [pyRange, dif_pos (⟨by omega, by omega⟩ : 0 < bs ∧ s < total + 1)]
    by_cases hcase : s + bs ≤ total
    · obtain ⟨ihc, ihsz, ihlast⟩ := ih (s + bs) (by omega) (by omega) (by omega)
      have hmin : min (s + bs - 1) total = s + bs - 1 := by omega
      have hrest_ne :
          (pyRange (s + bs) (total + 1) bs).map
            (fun x => (x, min (x + bs - 1) total)) ≠ [] := by
        rw [pyRange, dif_pos (⟨by omega, by omega⟩ : 0 < bs ∧ s + bs < total + 1)]
        simp
      refine ⟨?_, ?_, ?_⟩
      · rw [List.map_cons, List.flatMap_cons, ihc]
        simp only [hmin]
        have hsz : s + bs - 1 + 1 - s = bs := by omega
        rw [hsz]
        have happ := List.range'_append s bs (total + 1 - (s + bs)) 1
        rw [Nat.one_mul] at happ
        rw [happ]
        have htot : total + 1 - (s + bs) + bs = total + 1 - s := by omega
        rw [htot]
      · intro w hw
        rw [List.map_cons] at hw
        rcases List.mem_cons.mp hw with hw0 | hwr
        · rw [hw0]
          simp only [hmin]
          omega
        · exact ihsz w hwr
      · intro w hw
        rw [List.map_cons, List.dropLast_cons_of_ne_nil hrest_ne] at hw
        rcases List.mem_cons.mp hw with hw0 | hwr
        · rw [hw0]
          simp only [hmin]
          omega
        · exact ihlast w hwr
    · have hmin : min (s + bs - 1) total = total := by omega
      have hempty : pyRange (s + bs) (total + 1) bs = [] := by
        rw [pyRange, dif_neg (by omega : ¬(0 < bs ∧ s + bs < total + 1))]
      rw [hempty]
      refine ⟨?_, ?_, ?_⟩
      · simp only [List.map_cons, List.map_nil, List.flatMap_cons,
          List.flatMap_nil, List.append_nil, hmin]
      · intro w hw
        simp only [List.map_cons, List.map_nil, List.mem_singleton] at hw
        rw [hw]
        simp only [hmin]
        omega
      · intro w hw
        simp only [List.map_cons, List.map_nil, List.dropLast_single] at hw
        exact absurd hw (List.not_mem_nil w)

/-- Claim C2: for every `total_pages ≥ 1` and `batch_size ≥ 1`, the batch
windows are contiguous, non-overlapping and cover exactly
`[1, total_pages]` (their page ranges concatenate, in order, to the full
page list), each window has size at most `batch_size`, and every window
except possibly the last has size exactly `batch_size`. -/
theorem spec_C2 (total bs : Nat) (ht : 1 ≤ total) (hb : 1 ≤ bs) :
    ((batchWindows total bs).flatMap
        (fun w => List.range' w.1 (w.2 + 1 - w.1)) = List.range' 1 total)
    ∧ (∀ w ∈ batchWindows total bs, w.1 ≤ w.2 ∧ w.2 + 1 - w.1 ≤ bs)
    ∧ (∀ w ∈ (batchWindows total bs).dropLast, w.2 + 1 - w.1 = bs) := by
  have hmain := batchWindows_from bs total hb total 1 (by omega) (by omega)
    (by omega)
  unfold batchWindows
  have h11 : total + 1 - 1 = total := by omega
  rw [h11] at hmain
  exact hmain

/-- Witness for C2 at the spec's end-to-end example: a 12-page PDF with
batch size 5 is covered exactly by windows of sizes 5, 5, 2. -/
theorem spec_C2_witness :
    ((batchWindows 12 5).flatMap
        (fun w => List.range' w.1 (w.2 + 1 - w.1)) = List.range' 1 12)
    ∧ (∀ w ∈ batchWindows 12 5, w.1 ≤ w.2 ∧ w.2 + 1 - w.1 ≤ 5)
    ∧ (∀ w ∈ (batchWindows 12 5).dropLast, w.2 + 1 - w.1 = 5) :=
  spec_C2 12 5 (by decide) (by decide)

/-- `f"\n{'='*20} {page_label} {'='*20}\n{text}"` — the labeled block
built for each page in `run_pipeline` (used for both the raw and the
corrected document). -/
def withHeader (label : String) (text : List Char) : List Char :=
  ['\n'] ++ List.replicate 20 '=' ++ [' '] ++ label.data ++ [' ']
    ++ List.replicate 20 '=' ++ ['\n'] ++ text

/-- The pass-2 body of `run_pipeline` for one page: in two-pass mode run
`correct_text` (default `max_retries = 3`) and build both blocks; in
one-pass mode `corrected = None` and only the raw block is built.  The
`retNone` branch renders Python's `corrected = None` through the f-string
as the text `"None"`; it is unreachable for `max_retries = 3` (see
`correctGo_not_retNone`). -/
def pass2Page (mode : Mode) (op : Nat → CorrResp) (label : String)
    (raw : List Char) : Nat × Except ErrKind (List Char × Option (List Char)) :=
  match mode with
  | .onePass => (0, .ok (withHeader label raw, none))
  | .twoPass =>
    match (correct_text op raw 3).outcome with
    | .ok c =>
      ((correct_text op raw 3).calls,
        .ok (withHeader label raw, some (withHeader label c)))
    | .raisedTimeout => ((correct_text op raw 3).calls, .error .timeout)
    | .raisedOther => ((correct_text op raw 3).calls, .error .otherE)
    | .retNone =>
      ((correct_text op raw 3).calls,
        .ok (withHeader label raw, some (withHeader label "None".data)))

/-- The sequential pass-2 loop over a batch's (sorted) results: each page
contributes its raw block and, in two-pass mode, its corrected block; a
propagated correction error aborts the loop (later pages of the batch are
not corrected). -/
def pass2Batch (mode : Mode) (corrOp : Nat → Nat → CorrResp) :
    List TaskRes → Nat × Except ErrKind (List (List Char) × List (List Char))
  | [] => (0, .ok ([], []))
  | (idx, label, raw) :: rest =>
    match pass2Page mode (fun a => corrOp idx a) label raw with
    | (c, .error e) => (c, .error e)
    | (c, .ok (rb, cbOpt)) =>
      (c + (pass2Batch mode corrOp rest).1,
        (pass2Batch mode corrOp rest).2.map fun p =>
          (rb :: p.1,
            match cbOpt with
            | some cb => cb :: p.2
            | none => p.2))

/-- The OCR tasks of one batch, one per page index of the window.  Every
submitted task runs to completion inside the `with ThreadPoolExecutor`
block, so invocation counts accumulate over all pages even when a task
raises; a raised task makes the collection loop re-raise, aborting the
run.  When several tasks fail, which exception surfaces first depends on
completion order; the lowest-index failure is surfaced here. -/
def ocrTasks (ocrOp : Nat → Nat → Nat → OcrResp) (render : Nat → Image)
    (startPage : Nat) : List Nat → Nat × Except ErrKind (List TaskRes)
  | [] => (0, .ok [])
  | idx :: rest =>
    match ocr_page (fun c a => ocrOp idx c a) (render idx) 3 with
    | ⟨calls, .error e⟩ =>
      (calls + (ocrTasks ocrOp render startPage rest).1, .error e)
    | ⟨calls, .ok raw⟩ =>
      (calls + (ocrTasks ocrOp render startPage rest).1,
        (ocrTasks ocrOp render startPage rest).2.map
          (fun l => (idx, pageLabel idx startPage, raw) :: l))

/-- The batch loop of `run_pipeline`: for each window, render its pages,
fan the OCR tasks out over the worker pool (`reorder` is the completion
order in which `as_completed` yields the results; theorems assume it is a
permutation), sort the collected results back by page index, run the
sequential pass-2 loop, and accumulate both document block lists.  Any
propagated error aborts the remaining windows. -/
def processWindows (ocrOp : Nat → Nat → Nat → OcrResp)
    (corrOp : Nat → Nat → CorrResp) (render : Nat → Image)
    (reorder : Nat → List TaskRes → List TaskRes)
    (startPage : Nat) (mode : Mode) :
    List (Nat × Nat) →
      Nat × Nat × Except ErrKind (List (List Char) × List (List Char))
  | [] => (0, 0, .ok ([], []))
  | (s, e) :: ws =>
    match ocrTasks ocrOp render startPage (List.range' s (e + 1 - s)) with
    | (oc, .error err) => (oc, 0, .error err)
    | (oc, .ok tasks) =>
      match pass2Batch mode corrOp (sortResults (reorder s tasks)) with
      | (cc, .error err) => (oc, cc, .error err)
      | (cc, .ok (rb, cb)) =>
        match processWindows ocrOp corrOp render reorder startPage mode ws with
        | (oc2, cc2, rest) =>
          (oc + oc2, cc + cc2, rest.map fun p => (rb ++ p.1, cb ++ p.2))

/-- How `run_pipeline` ends: returned `None` at the zero-page check, a
propagated exception, or the returned document text(s). -/
inductive PipeOutcome where
  | retNone
  | raised (e : ErrKind)
  | oneOut (raw : List Char)
  | twoOut (raw corr : List Char)

/-- Observable trace of one `run_pipeline` call: how many OCR and
correction invocations were made, what was written to the raw and
corrected output files (`none` = file not written), and the outcome. -/
structure PipeTrace where
  ocrCalls : Nat
  corrCalls : Nat
  rawWritten : Option (List Char)
  corrWritten : Option (List Char)
  outcome : PipeOutcome

/-- `run_pipeline(pdf_path, start_page, mode, batch_size)` from the
source: check the page count, process the batch windows, then join the
accumulated blocks with `"\n\n"`, write the raw file (and in two-pass
mode the corrected file) and return the text(s). -/
def run_pipeline (totalPages : Nat) (render : Nat → Image)
    (ocrOp : Nat → Nat → Nat → OcrResp) (corrOp : Nat → Nat → CorrResp)
    (reorder : Nat → List TaskRes → List TaskRes)
    (startPage : Nat) (mode : Mode) (batchSize : Nat) : PipeTrace :=
  if totalPages = 0 then ⟨0, 0, none, none, .retNone⟩
  else
    match processWindows ocrOp corrOp render reorder startPage mode
        (batchWindows totalPages batchSize) with
    | (oc, cc, .error e) => ⟨oc, cc, none, none, .raised e⟩
    | (oc, cc, .ok (rawPages, corrPages)) =>
      match mode with
      | .twoPass =>
        ⟨oc, cc, some (pyJoin ['\n', '\n'] rawPages),
          some (pyJoin ['\n', '\n'] corrPages),
          .twoOut (pyJoin ['\n', '\n'] rawPages) (pyJoin ['\n', '\n'] corrPages)⟩
      | .onePass =>
        ⟨oc, cc, some (pyJoin ['\n', '\n'] rawPages), none,
          .oneOut (pyJoin ['\n', '\n'] rawPages)⟩

/-- Claim C9: when the page counter reports 0 pages, the run fails with
the "no pages" condition before any page processing — no OCR or
correction invocation is made, neither output file is written, and `None`
(no document) is returned to the caller. -/
theorem spec_C9 (render : Nat → Image) (ocrOp : Nat → Nat → Nat → OcrResp)
    (corrOp : Nat → Nat → CorrResp)
    (reorder : Nat → List TaskRes → List TaskRes)
    (startPage : Nat) (mode : Mode) (batchSize : Nat) :
    run_pipeline 0 render ocrOp corrOp reorder startPage mode batchSize
      = ⟨0, 0, none, none, .retNone⟩ := rfl

/-- Claim C5: a page's corrected block is present in the output iff the
mode is two-pass — in one-pass mode no correction call is even made — and
when the correction call exhausts its retries on empty responses the
corrected block carries the page's raw text verbatim (the fallback is
never discarded as empty). -/
theorem spec_C5 :
    (∀ (op : Nat → CorrResp) (label : String) (raw : List Char),
      pass2Page Mode.onePass op label raw
        = (0, .ok (withHeader label raw, none)))
    ∧ (∀ (mode : Mode) (op : Nat → CorrResp) (label : String)
        (raw rb : List Char) (cb : Option (List Char)),
        (pass2Page mode op label raw).2 = .ok (rb, cb) →
        (cb.isSome ↔ mode = Mode.twoPass))
    ∧ (∀ (op : Nat → CorrResp) (label : String) (raw : List Char),
        (∀ a, op a = CorrResp.empty) →
        (pass2Page Mode.twoPass op label raw).2
          = .ok (withHeader label raw, some (withHeader label raw))) := by
  refine ⟨fun op label raw => rfl, ?_, ?_⟩
  · intro mode op label raw rb cb h
    cases mode with
    | onePass =>
      simp only [pass2Page, Except.ok.injEq, Prod.mk.injEq] at h
      rw [← h.2]
      simp
    | twoPass =>
      cases hc : (correct_text op raw 3).outcome with
      | ok c =>
        simp only [pass2Page, hc, Except.ok.injEq, Prod.mk.injEq] at h
        rw [← h.2]
        simp
      | raisedTimeout => simp [pass2Page, hc] at h
      | raisedOther => simp [pass2Page, hc] at h
      | retNone =>
        simp only [pass2Page, hc, Except.ok.injEq, Prod.mk.injEq] at h
        rw [← h.2]
        simp
  · intro op label raw hop
    have hct : (correct_text op raw 3).outcome = .ok raw := by
      show (correctGo op raw 3 (List.range 3)).outcome = _
      have h3 : List.range 3 = [0, 1, 2] := rfl
      rw [h3]
      simp [correctGo, hop 0, hop 1, hop 2]
    simp only [pass2Page, hct]

/-- Witness for C5: with an always-empty correction oracle in two-pass
mode, the page yields a present corrected block equal to the raw block. -/
theorem spec_C5_witness :
    ((some (withHeader "Page 1" ['x'])).isSome ↔ Mode.twoPass = Mode.twoPass)
    ∧ (pass2Page Mode.twoPass (fun _ => CorrResp.empty) "Page 1" ['x']).2
        = .ok (withHeader "Page 1" ['x'], some (withHeader "Page 1" ['x'])) :=
  ⟨spec_C5.2.1 Mode.twoPass (fun _ => CorrResp.empty) "Page 1" ['x']
      (withHeader "Page 1" ['x']) (some (withHeader "Page 1" ['x'])) (by rfl),
   spec_C5.2.2 (fun _ => CorrResp.empty) "Page 1" ['x'] (fun a => rfl)⟩
